import Mathlib

/-!
Verification of the TinyMPS spatial hash grid (tiny_mps::Grid, src/include/bubble_particles.h).

Numeric model: IEEE doubles are modelled by the rationals.  All operations the
claims exercise (multiplication by a 0/1 mask, comparisons, min/max, subtraction,
division, ceiling, squaring) are exact on the inputs considered, so the rational
model is faithful for them.

The inline member functions of the header (getMaxCoordinates, getMinCoordinates,
toHash, toIndex, getGridHashBegin) are translated directly from the source.  The
bodies of the Grid constructor, setHash, getNeighbors and getNeighborsInBox live
in a grid.cpp that is not part of src/; those parts are modelled from the spec
and are marked as such in their doc comments.
-/

namespace TinyMPS

/-- Models Eigen::Vector3d with rational components in place of doubles. -/
structure Vec3 where
  x : ℚ
  y : ℚ
  z : ℚ
deriving DecidableEq, Repr

/-- Models valid_coordinates.cast<double>(): true maps to 1.0, false to 0.0. -/
def boolToRat (b : Bool) : ℚ := if b then 1 else 0

/-- Componentwise maximum of two 3-vectors. -/
def vmax (a b : Vec3) : Vec3 := ⟨max a.x b.x, max a.y b.y, max a.z b.z⟩

/-- Componentwise minimum of two 3-vectors. -/
def vmin (a b : Vec3) : Vec3 := ⟨min a.x b.x, min a.y b.y, min a.z b.z⟩

/-- The columns of coordinates.array().rowwise() * valid.cast<double>().transpose().array():
the 3xN coordinates matrix is stored as a list of its N columns, and column j is scaled
by the cast of the j-th mask entry (Eigen broadcasts the mask row over each row). -/
def maskedColumns (coordinates : List Vec3) (valid : List Bool) : List Vec3 :=
  (coordinates.zip valid).map fun cv =>
    ⟨cv.1.x * boolToRat cv.2, cv.1.y * boolToRat cv.2, cv.1.z * boolToRat cv.2⟩

/-- Models Eigen rowwise().maxCoeff() on a 3xN array stored as a list of columns.
Eigen requires at least one column; the empty case returns the junk value 0 and is a
caller precondition violation (spec section 4.1). -/
def rowwiseMax : List Vec3 → Vec3
  | [] => ⟨0, 0, 0⟩
  | c :: cs => cs.foldl vmax c

/-- Models Eigen rowwise().minCoeff(), as in rowwiseMax. -/
def rowwiseMin : List Vec3 → Vec3
  | [] => ⟨0, 0, 0⟩
  | c :: cs => cs.foldl vmin c

/-- Grid::getMaxCoordinates: rowwise maximum of the mask-scaled coordinate matrix. -/
def getMaxCoordinates (coordinates : List Vec3) (valid : List Bool) : Vec3 :=
  rowwiseMax (maskedColumns coordinates valid)

/-- Grid::getMinCoordinates: rowwise minimum of the mask-scaled coordinate matrix. -/
def getMinCoordinates (coordinates : List Vec3) (valid : List Bool) : Vec3 :=
  rowwiseMin (maskedColumns coordinates valid)

/-- The element-wise maximum of the coordinates restricted to the valid entries only,
as the spec's words describe the bounds contract (for comparison with the source's
getMaxCoordinates). -/
def specMaxValidCoordinates (coordinates : List Vec3) (valid : List Bool) : Vec3 :=
  rowwiseMax ((coordinates.zip valid).filterMap fun cv => if cv.2 then some cv.1 else none)

/-- The element-wise minimum restricted to valid entries, as the spec's words describe. -/
def specMinValidCoordinates (coordinates : List Vec3) (valid : List Bool) : Vec3 :=
  rowwiseMin ((coordinates.zip valid).filterMap fun cv => if cv.2 then some cv.1 else none)

/-- Grid::toIndex(const Eigen::Vector3d&, int&, int&, int&): per-axis cell index by
std::ceil((coordinate - lower_bounds) / grid_width); the z index is 0 unless
dimension == 3.  Result tuple is (dx, dy, dz). -/
def toIndexVec (dimension : ℤ) (lower_bounds : Vec3) (grid_width : ℚ) (v : Vec3) :
    ℤ × ℤ × ℤ :=
  (⌈(v.x - lower_bounds.x) / grid_width⌉,
   ⌈(v.y - lower_bounds.y) / grid_width⌉,
   if dimension = 3 then ⌈(v.z - lower_bounds.z) / grid_width⌉ else 0)

/-- Grid::toHash(int, int): the 2D linearization index_x + index_y * grid_number[0]. -/
def toHash2 (Nx : ℤ) (index_x index_y : ℤ) : ℤ := index_x + index_y * Nx

/-- Grid::toHash(int, int, int): delegates to the 2D overload when dimension == 2,
otherwise index_x + index_y * grid_number[0] + index_z * grid_number[1] * grid_number[0]. -/
def toHash3 (dimension Nx Ny : ℤ) (index_x index_y index_z : ℤ) : ℤ :=
  if dimension = 2 then toHash2 Nx index_x index_y
  else index_x + index_y * Nx + index_z * Ny * Nx

/-- Grid::toIndex(int, int&, int&): dy = hash / grid_number[0], dx = hash % grid_number[0],
with C++ truncated division and remainder (Int.tdiv, Int.tmod).  Result is (dx, dy). -/
def toIndexOfHash2 (Nx : ℤ) (hash : ℤ) : ℤ × ℤ :=
  (Int.tmod hash Nx, Int.tdiv hash Nx)

/-- Grid::toIndex(int, int&, int&, int&): the 2D overload with dz = 0 when dimension == 2,
otherwise dz = hash / (Ny*Nx), dy = (hash % (Ny*Nx)) / Nx, dx = (hash % (Ny*Nx)) % Nx,
with C++ truncated division and remainder.  Result tuple is (dx, dy, dz). -/
def toIndexOfHash3 (dimension Nx Ny : ℤ) (hash : ℤ) : ℤ × ℤ × ℤ :=
  if dimension = 2 then
    ((toIndexOfHash2 Nx hash).1, (toIndexOfHash2 Nx hash).2, 0)
  else
    (Int.tmod (Int.tmod hash (Ny * Nx)) Nx,
     Int.tdiv (Int.tmod hash (Ny * Nx)) Nx,
     Int.tdiv hash (Ny * Nx))

/-- Grid::getGridHashBegin: begin_hash is modelled as an association list from hash to
the (begin, end) pair; absence of the key (and the empty map) yields the sentinel
(-1, -1). -/
def getGridHashBegin (begin_hash : List (ℤ × (ℤ × ℤ))) (hash : ℤ) : ℤ × ℤ :=
  if begin_hash.isEmpty then (-1, -1)
  else
    match begin_hash.lookup hash with
    | none => (-1, -1)
    | some p => p

/-- std::unordered_map::at modelled as a fallible access: none stands for the
std::out_of_range exception that at raises on a missing key. -/
def mapAt (m : List (ℤ × (ℤ × ℤ))) (k : ℤ) : Option (ℤ × ℤ) := m.lookup k

/-- Grid::getGridHashBegin with both unordered_map::at accesses (one for begin, one for
end) kept fallible: a none result would model an uncaught std::out_of_range. -/
def getGridHashBeginChecked (begin_hash : List (ℤ × (ℤ × ℤ))) (hash : ℤ) :
    Option (ℤ × ℤ) :=
  if begin_hash.isEmpty then some (-1, -1)
  else if (begin_hash.lookup hash).isNone then some (-1, -1)
  else
    match mapAt begin_hash hash, mapAt begin_hash hash with
    | some pb, some pe => some (pb.1, pe.2)
    | _, _ => none

/-- The state of a constructed tiny_mps::Grid, mirroring the private fields of the class. -/
structure Grid where
  dimension : ℤ
  size : ℕ
  grid_width : ℚ
  coordinates : List Vec3
  valid_coordinates : List Bool
  lower_bounds : Vec3
  higher_bounds : Vec3
  grid_number : ℤ × ℤ × ℤ
  grid_hash : List (ℤ × ℕ)
  begin_hash : List (ℤ × (ℤ × ℤ))

/-- Modelled from the spec: the Grid constructor body (grid.cpp) is not in src/.
Spec section 3: cellCount is derived from (upperBound - lowerBound) / cellWidth; since
toIndex maps a coordinate at the lower bound to cell 0 and one at the upper bound to
cell ceil((upper - lower) / width), each axis count is that ceiling plus one. -/
def gridNumberOf (grid_width : ℚ) (lower higher : Vec3) : ℤ × ℤ × ℤ :=
  (⌈(higher.x - lower.x) / grid_width⌉ + 1,
   ⌈(higher.y - lower.y) / grid_width⌉ + 1,
   ⌈(higher.z - lower.z) / grid_width⌉ + 1)

/-- Modelled from the spec: setHash (grid.cpp) is not in src/.  Spec section 4.3: for
every valid particle compute its hash via the cell indexer; invalid particles are
excluded entirely (not hashed, not stored).  Produces the unsorted (hash, index) pairs
in particle order. -/
def hashedPairs (dimension : ℤ) (grid_width : ℚ) (coordinates : List Vec3)
    (valid : List Bool) (lower : Vec3) (gn : ℤ × ℤ × ℤ) : List (ℤ × ℕ) :=
  (List.range coordinates.length).filterMap fun i =>
    if valid.getD i false then
      some
        (toHash3 dimension gn.1 gn.2.1
          (toIndexVec dimension lower grid_width (coordinates.getD i ⟨0, 0, 0⟩)).1
          (toIndexVec dimension lower grid_width (coordinates.getD i ⟨0, 0, 0⟩)).2.1
          (toIndexVec dimension lower grid_width (coordinates.getD i ⟨0, 0, 0⟩)).2.2,
         i)
    else none

/-- Length of the initial run of entries carrying hash h. -/
def runLength (h : ℤ) : List (ℤ × ℕ) → ℕ
  | [] => 0
  | p :: rest => if p.1 = h then runLength h rest + 1 else 0

/-- Modelled from the spec: the linear scan of setHash (grid.cpp, not in src/) that
collapses the sorted (hash, index) sequence into hash -> (begin, end) half-open offset
ranges (spec sections 3 and 4.3).  The first argument is recursion fuel (the scan
consumes at least one entry per emitted range), the second the current offset. -/
def buildRangesFuel : ℕ → ℕ → List (ℤ × ℕ) → List (ℤ × (ℤ × ℤ))
  | 0, _, _ => []
  | _ + 1, _, [] => []
  | fuel + 1, pos, p :: rest =>
    let k := runLength p.1 rest
    (p.1, ((pos : ℤ), ((pos + 1 + k : ℕ) : ℤ))) ::
      buildRangesFuel fuel (pos + 1 + k) (rest.drop k)

/-- The hash -> (begin, end) mapping built from the sorted bucket sequence. -/
def buildRanges (l : List (ℤ × ℕ)) : List (ℤ × (ℤ × ℤ)) := buildRangesFuel l.length 0 l

/-- Modelled from the spec: the Grid constructor pipeline (grid.cpp, not in src/),
spec section 2: bounds (the source's getMin/getMaxCoordinates) -> cell counts ->
stable sort of (hash, index) pairs by hash -> range scan. -/
def mkGrid (grid_width : ℚ) (coordinates : List Vec3) (valid : List Bool)
    (dimension : ℤ) : Grid :=
  let lower := getMinCoordinates coordinates valid
  let higher := getMaxCoordinates coordinates valid
  let gn := gridNumberOf grid_width lower higher
  let gh := (hashedPairs dimension grid_width coordinates valid lower gn).mergeSort
    (fun a b => a.1 ≤ b.1)
  { dimension := dimension
    size := coordinates.length
    grid_width := grid_width
    coordinates := coordinates
    valid_coordinates := valid
    lower_bounds := lower
    higher_bounds := higher
    grid_number := gn
    grid_hash := gh
    begin_hash := buildRanges gh }

/-- Modelled from the spec: the 3^dimension cell offsets visited by a query, including
the query particle's own cell (spec section 4.4); in 2D only the z = 0 layer. -/
def cellOffsets (dimension : ℤ) : List (ℤ × ℤ × ℤ) :=
  if dimension = 2 then
    [-1, 0, 1].flatMap fun oy =>
      [-1, 0, 1].map fun ox => ((ox : ℤ), (oy : ℤ), (0 : ℤ))
  else
    [-1, 0, 1].flatMap fun oz =>
      [-1, 0, 1].flatMap fun oy =>
        [-1, 0, 1].map fun ox => ((ox : ℤ), (oy : ℤ), (oz : ℤ))

/-- Particle indices stored in the bucket slice of grid_hash for one probed cell:
hash the cell, look up its (begin, end) range, and read the half-open slice; a
sentinel range contributes nothing. -/
def cellCandidates (g : Grid) (cell : ℤ × ℤ × ℤ) : List ℕ :=
  let h := toHash3 g.dimension g.grid_number.1 g.grid_number.2.1 cell.1 cell.2.1 cell.2.2
  let r := getGridHashBegin g.begin_hash h
  if r.1 < 0 then []
  else ((g.grid_hash.drop r.1.toNat).take (r.2 - r.1).toNat).map Prod.snd

/-- Modelled from the spec: getNeighborsInBox (grid.cpp, not in src/), spec section 4.4:
recompute the query particle's cell triple and append every bucket member of the
3^dimension surrounding cells, unfiltered. -/
def getNeighborsInBox (g : Grid) (index : ℕ) : List ℕ :=
  let t := toIndexVec g.dimension g.lower_bounds g.grid_width
    (g.coordinates.getD index ⟨0, 0, 0⟩)
  (cellOffsets g.dimension).flatMap fun o =>
    cellCandidates g (t.1 + o.1, t.2.1 + o.2.1, t.2.2 + o.2.2)

/-- Squared Euclidean distance of two positions. -/
def sqDist (a b : Vec3) : ℚ :=
  (a.x - b.x) ^ 2 + (a.y - b.y) ^ 2 + (a.z - b.z) ^ 2

/-- Modelled from the spec: getNeighbors (grid.cpp, not in src/), spec section 4.4: the
same cell traversal as getNeighborsInBox, discarding candidates whose Euclidean distance
from the query particle exceeds grid_width.  The comparison dist <= grid_width is
expressed on squares, sqDist <= grid_width^2, which is equivalent for a nonnegative
grid_width. -/
def getNeighbors (g : Grid) (index : ℕ) : List ℕ :=
  (getNeighborsInBox g index).filter fun j =>
    sqDist (g.coordinates.getD index ⟨0, 0, 0⟩) (g.coordinates.getD j ⟨0, 0, 0⟩) ≤
      g.grid_width ^ 2

end TinyMPS


namespace TinyMPS

/-- Helper: the 3D hash of an in-range triple decomposes under Euclidean division. -/
theorem toIndexOfHash3_toHash3_dim3 (Nx Ny ix iy iz : ℤ)
    (hx0 : 0 ≤ ix) (hx : ix < Nx) (hy0 : 0 ≤ iy) (hy : iy < Ny) (hz0 : 0 ≤ iz) :
    toIndexOfHash3 3 Nx Ny (toHash3 3 Nx Ny ix iy iz) = (ix, iy, iz) := by
  have hNx : 0 < Nx := lt_of_le_of_lt hx0 hx
  have hNy : 0 < Ny := lt_of_le_of_lt hy0 hy
  have hM : 0 < Ny * Nx := mul_pos hNy hNx
  have hsmall0 : 0 ≤ ix + iy * Nx := add_nonneg hx0 (mul_nonneg hy0 hNx.le)
  have hsmall : ix + iy * Nx < Ny * Nx := by
    have h1 : ix + iy * Nx < Nx + iy * Nx := by linarith
    have h2 : (iy + 1) * Nx ≤ Ny * Nx :=
      mul_le_mul_of_nonneg_right (Int.add_one_le_iff.mpr hy) hNx.le
    nlinarith
  have hh : toHash3 3 Nx Ny ix iy iz = (ix + iy * Nx) + iz * (Ny * Nx) := by
    norm_num [toHash3]
    ring
  have hh0 : 0 ≤ toHash3 3 Nx Ny ix iy iz := by
    rw [hh]
    exact add_nonneg hsmall0 (mul_nonneg hz0 hM.le)
  have hmodM : Int.tmod (toHash3 3 Nx Ny ix iy iz) (Ny * Nx) = ix + iy * Nx := by
    rw [Int.tmod_eq_emod hh0 hM.le, hh, Int.add_mul_emod_self,
      Int.emod_eq_of_lt hsmall0 hsmall]
  have hdivM : Int.tdiv (toHash3 3 Nx Ny ix iy iz) (Ny * Nx) = iz := by
    rw [Int.tdiv_eq_ediv hh0 hM.le, hh, Int.add_mul_ediv_right _ _ hM.ne',
      Int.ediv_eq_zero_of_lt hsmall0 hsmall, zero_add]
  have hmodNx : Int.tmod (ix + iy * Nx) Nx = ix := by
    rw [Int.tmod_eq_emod hsmall0 hNx.le, Int.add_mul_emod_self,
      Int.emod_eq_of_lt hx0 hx]
  have hdivNx : Int.tdiv (ix + iy * Nx) Nx = iy := by
    rw [Int.tdiv_eq_ediv hsmall0 hNx.le, Int.add_mul_ediv_right _ _ hNx.ne',
      Int.ediv_eq_zero_of_lt hx0 hx, zero_add]
  have h3 : (3 : ℤ) ≠ 2 := by decide
  simp only [toIndexOfHash3, if_neg h3, hmodM, hdivM, hmodNx, hdivNx]

/-- Helper: the 2D hash of a triple whose x and y indices are in range is inverted to
(x, y, 0) by the hash inverse, for any z index. -/
theorem toIndexOfHash3_toHash3_dim2 (Nx Ny ix iy iz : ℤ)
    (hx0 : 0 ≤ ix) (hx : ix < Nx) (hy0 : 0 ≤ iy) :
    toIndexOfHash3 2 Nx Ny (toHash3 2 Nx Ny ix iy iz) = (ix, iy, 0) := by
  have hNx : 0 < Nx := lt_of_le_of_lt hx0 hx
  have hsmall0 : 0 ≤ ix + iy * Nx := add_nonneg hx0 (mul_nonneg hy0 hNx.le)
  have hh : toHash3 2 Nx Ny ix iy iz = ix + iy * Nx := by
    norm_num [toHash3, toHash2]
  have hmodNx : Int.tmod (ix + iy * Nx) Nx = ix := by
    rw [Int.tmod_eq_emod hsmall0 hNx.le, Int.add_mul_emod_self,
      Int.emod_eq_of_lt hx0 hx]
  have hdivNx : Int.tdiv (ix + iy * Nx) Nx = iy := by
    rw [Int.tdiv_eq_ediv hsmall0 hNx.le, Int.add_mul_ediv_right _ _ hNx.ne',
      Int.ediv_eq_zero_of_lt hx0 hx, zero_add]
  norm_num [toIndexOfHash3, toIndexOfHash2, hh, hmodNx, hdivNx]

/-- Claim C4: toIndex on a 3-vector computes ceil((coordinate - lower_bounds) / grid_width)
on the x and y axes, and on the z axis when dimension = 3, while the z cell index is
exactly 0 when dimension = 2. -/
theorem toIndexVec_ceil (dimension : ℤ) (lb : Vec3) (w : ℚ) (v : Vec3) :
    (dimension = 3 → toIndexVec dimension lb w v =
      (⌈(v.x - lb.x) / w⌉, ⌈(v.y - lb.y) / w⌉, ⌈(v.z - lb.z) / w⌉)) ∧
    (dimension = 2 → toIndexVec dimension lb w v =
      (⌈(v.x - lb.x) / w⌉, ⌈(v.y - lb.y) / w⌉, 0)) := by
  constructor <;> rintro rfl <;> norm_num [toIndexVec]

/-- Witness for C4: the formula evaluated at dimension 2, lower bounds 0, width 1. -/
theorem toIndexVec_ceil_witness :
    toIndexVec 2 ⟨0, 0, 0⟩ 1 ⟨3/2, 5, 7⟩ =
      (⌈((3/2 : ℚ) - 0) / 1⌉, ⌈((5 : ℚ) - 0) / 1⌉, 0) :=
  (toIndexVec_ceil 2 ⟨0, 0, 0⟩ 1 ⟨3/2, 5, 7⟩).2 rfl

/-- Claim C5: toHash linearizes a cell triple as ix + iy*Nx + iz*Nx*Ny when dimension = 3
and as ix + iy*Nx, with the z term omitted entirely, when dimension = 2. -/
theorem toHash3_linear (dimension Nx Ny ix iy iz : ℤ) :
    (dimension = 3 → toHash3 dimension Nx Ny ix iy iz = ix + iy * Nx + iz * (Nx * Ny)) ∧
    (dimension = 2 → toHash3 dimension Nx Ny ix iy iz = ix + iy * Nx) := by
  constructor <;> rintro rfl
  · norm_num [toHash3]
    ring
  · norm_num [toHash3, toHash2]

/-- Witness for C5: the linearization evaluated at Nx = 5, Ny = 7, triple (1, 2, 3). -/
theorem toHash3_linear_witness :
    toHash3 3 5 7 1 2 3 = 1 + 2 * 5 + 3 * (5 * 7) :=
  (toHash3_linear 3 5 7 1 2 3).1 rfl

/-- Counterexample to claim C6: with dimension = 2 and grid numbers Nx = Ny = 2, the
distinct triples (0, 0, 0) and (0, 0, 1) are in range on both participating axes yet
receive the same hash, because the 2D hash ignores the z index entirely. -/
theorem toHash3_2d_zaxis_collision :
    ((0 : ℤ), (0 : ℤ), (0 : ℤ)) ≠ ((0 : ℤ), (0 : ℤ), (1 : ℤ)) ∧
    (0 : ℤ) ≤ 0 ∧ (0 : ℤ) < 2 ∧
    toHash3 2 2 2 0 0 0 = toHash3 2 2 2 0 0 1 := by decide

/-- Claim C6 as amended: in 3D, toHash is injective on in-range triples and toIndex
inverts it exactly; in 2D, toIndex of toHash recovers (ix, iy, 0) for any z index, and
toHash is injective on in-range triples that agree on the z index. -/
theorem toHash3_inverse_and_injective (Nx Ny ix iy iz jx jy jz : ℤ) :
    (0 ≤ ix → ix < Nx → 0 ≤ iy → iy < Ny → 0 ≤ iz →
      toIndexOfHash3 3 Nx Ny (toHash3 3 Nx Ny ix iy iz) = (ix, iy, iz)) ∧
    (0 ≤ ix → ix < Nx → 0 ≤ iy → iy < Ny → 0 ≤ iz →
     0 ≤ jx → jx < Nx → 0 ≤ jy → jy < Ny → 0 ≤ jz →
      toHash3 3 Nx Ny ix iy iz = toHash3 3 Nx Ny jx jy jz →
      ix = jx ∧ iy = jy ∧ iz = jz) ∧
    (0 ≤ ix → ix < Nx → 0 ≤ iy →
      toIndexOfHash3 2 Nx Ny (toHash3 2 Nx Ny ix iy iz) = (ix, iy, 0)) ∧
    (0 ≤ ix → ix < Nx → 0 ≤ iy → 0 ≤ jx → jx < Nx → 0 ≤ jy → iz = jz →
      toHash3 2 Nx Ny ix iy iz = toHash3 2 Nx Ny jx jy jz →
      ix = jx ∧ iy = jy ∧ iz = jz) := by
  refine ⟨?_, ?_, ?_, ?_⟩
  · intro hx0 hx hy0 hy hz0
    exact toIndexOfHash3_toHash3_dim3 Nx Ny ix iy iz hx0 hx hy0 hy hz0
  · intro hx0 hx hy0 hy hz0 hjx0 hjx hjy0 hjy hjz0 heq
    have h1 := toIndexOfHash3_toHash3_dim3 Nx Ny ix iy iz hx0 hx hy0 hy hz0
    have h2 := toIndexOfHash3_toHash3_dim3 Nx Ny jx jy jz hjx0 hjx hjy0 hjy hjz0
    rw [heq, h2] at h1
    have h1s : jx = ix ∧ jy = iy ∧ jz = iz := by simpa using h1
    exact ⟨h1s.1.symm, h1s.2.1.symm, h1s.2.2.symm⟩
  · intro hx0 hx hy0
    exact toIndexOfHash3_toHash3_dim2 Nx Ny ix iy iz hx0 hx hy0
  · intro hx0 hx hy0 hjx0 hjx hjy0 hzz heq
    have h1 := toIndexOfHash3_toHash3_dim2 Nx Ny ix iy iz hx0 hx hy0
    have h2 := toIndexOfHash3_toHash3_dim2 Nx Ny jx jy jz hjx0 hjx hjy0
    rw [heq, h2] at h1
    have h1s : jx = ix ∧ jy = iy := by simpa using h1
    exact ⟨h1s.1.symm, h1s.2.symm, hzz⟩

/-- Witness for the amended C6: both roundtrips and the 3D injectivity instantiated on
concrete in-range triples with Nx = 3, Ny = 4. -/
theorem toHash3_inverse_and_injective_witness :
    toIndexOfHash3 3 3 4 (toHash3 3 3 4 1 2 3) = (1, 2, 3) ∧
    toIndexOfHash3 2 3 4 (toHash3 2 3 4 1 2 9) = (1, 2, 0) :=
  ⟨(toHash3_inverse_and_injective 3 4 1 2 3 0 0 0).1
      (by decide) (by decide) (by decide) (by decide) (by decide),
   (toHash3_inverse_and_injective 3 4 1 2 9 0 0 0).2.2.1
      (by decide) (by decide) (by decide)⟩

/-- Claim C9: for any integer hash (negative values included) and positive Nx, the 2D
inverse followed by the 2D hash is the identity, by the C++ truncated-division identity
(a / b) * b + a % b = a. -/
theorem toHash2_toIndexOfHash2_id (Nx hash : ℤ) (hNx : 0 < Nx) :
    toHash2 Nx (toIndexOfHash2 Nx hash).1 (toIndexOfHash2 Nx hash).2 = hash := by
  show Int.tmod hash Nx + Int.tdiv hash Nx * Nx = hash
  rw [mul_comm]
  exact Int.tmod_add_tdiv hash Nx

/-- Witness for C9 at Nx = 5 and the negative hash -13. -/
theorem toHash2_toIndexOfHash2_id_witness :
    (0 : ℤ) < 5 ∧ toHash2 5 (toIndexOfHash2 5 (-13)).1 (toIndexOfHash2 5 (-13)).2 = -13 :=
  ⟨by decide, toHash2_toIndexOfHash2_id 5 (-13) (by decide)⟩

/-- Claim C7: a hash absent from the bucket mapping (in particular when the mapping is
empty) makes getGridHashBegin report the sentinel empty range (-1, -1). -/
theorem getGridHashBegin_absent (begin_hash : List (ℤ × (ℤ × ℤ))) (hash : ℤ)
    (habs : begin_hash.lookup hash = none) :
    getGridHashBegin begin_hash hash = (-1, -1) := by
  unfold getGridHashBegin
  rw [habs]
  split <;> rfl

/-- Witness for C7: a nonempty mapping probed at a key it does not hold. -/
theorem getGridHashBegin_absent_witness :
    List.lookup (7 : ℤ) [((5 : ℤ), ((0 : ℤ), (2 : ℤ)))] = none ∧
    getGridHashBegin [((5 : ℤ), ((0 : ℤ), (2 : ℤ)))] 7 = (-1, -1) :=
  ⟨rfl, getGridHashBegin_absent _ _ rfl⟩

/-- Claim C10: getGridHashBegin is total: with every unordered_map::at access modelled
as fallible, the function never reaches the failure case and always returns the stored
pair or the sentinel, for every mapping and every hash. -/
theorem getGridHashBeginChecked_total (begin_hash : List (ℤ × (ℤ × ℤ))) (hash : ℤ) :
    getGridHashBeginChecked begin_hash hash = some (getGridHashBegin begin_hash hash) := by
  unfold getGridHashBeginChecked getGridHashBegin mapAt
  cases he : begin_hash.isEmpty <;> cases hl : begin_hash.lookup hash <;> simp [he, hl]

end TinyMPS

namespace TinyMPS

/-- Helper: the seed of a left max fold is a lower bound of the fold. -/
theorem le_foldl_max (l : List ℚ) (a : ℚ) : a ≤ l.foldl max a := by
  induction l generalizing a with
  | nil => exact le_refl a
  | cons b t ih => exact le_trans (le_max_left a b) (ih (max a b))

/-- Helper: every list element is a lower bound of a left max fold. -/
theorem mem_le_foldl_max (l : List ℚ) (a x : ℚ) (hx : x ∈ l) : x ≤ l.foldl max a := by
  induction l generalizing a with
  | nil => cases hx
  | cons b t ih =>
    rcases List.mem_cons.mp hx with h | h
    · subst h
      exact le_trans (le_max_right a x) (le_foldl_max t (max a x))
    · exact ih (max a b) h

/-- Helper: a left max fold returns its seed or a list element. -/
theorem foldl_max_mem (l : List ℚ) (a : ℚ) : l.foldl max a = a ∨ l.foldl max a ∈ l := by
  induction l generalizing a with
  | nil => exact Or.inl rfl
  | cons b t ih =>
    rcases ih (max a b) with h | h
    · rcases max_choice a b with he | he
      · exact Or.inl (by rw [List.foldl_cons, h, he])
      · exact Or.inr (by rw [List.foldl_cons, h, he]; exact List.mem_cons_self b t)
    · exact Or.inr (List.mem_cons_of_mem b h)

/-- Helper: the seed of a left min fold is an upper bound of the fold. -/
theorem foldl_min_le (l : List ℚ) (a : ℚ) : l.foldl min a ≤ a := by
  induction l generalizing a with
  | nil => exact le_refl a
  | cons b t ih => exact le_trans (ih (min a b)) (min_le_left a b)

/-- Helper: a left min fold is below every list element. -/
theorem foldl_min_le_mem (l : List ℚ) (a x : ℚ) (hx : x ∈ l) : l.foldl min a ≤ x := by
  induction l generalizing a with
  | nil => cases hx
  | cons b t ih =>
    rcases List.mem_cons.mp hx with h | h
    · subst h
      exact le_trans (foldl_min_le t (min a x)) (min_le_right a x)
    · exact ih (min a b) h

/-- Helper: a left min fold returns its seed or a list element. -/
theorem foldl_min_mem (l : List ℚ) (a : ℚ) : l.foldl min a = a ∨ l.foldl min a ∈ l := by
  induction l generalizing a with
  | nil => exact Or.inl rfl
  | cons b t ih =>
    rcases ih (min a b) with h | h
    · rcases min_choice a b with he | he
      · exact Or.inl (by rw [List.foldl_cons, h, he])
      · exact Or.inr (by rw [List.foldl_cons, h, he]; exact List.mem_cons_self b t)
    · exact Or.inr (List.mem_cons_of_mem b h)

/-- Helper: componentwise reading of a vmax fold. -/
theorem comp_foldl_vmax (f : Vec3 → ℚ) (hf : ∀ a b, f (vmax a b) = max (f a) (f b))
    (l : List Vec3) (c : Vec3) : f (l.foldl vmax c) = (l.map f).foldl max (f c) := by
  induction l generalizing c with
  | nil => rfl
  | cons d t ih => rw [List.foldl_cons, List.map_cons, List.foldl_cons, ih (vmax c d), hf]

/-- Helper: componentwise reading of a vmin fold. -/
theorem comp_foldl_vmin (f : Vec3 → ℚ) (hf : ∀ a b, f (vmin a b) = min (f a) (f b))
    (l : List Vec3) (c : Vec3) : f (l.foldl vmin c) = (l.map f).foldl min (f c) := by
  induction l generalizing c with
  | nil => rfl
  | cons d t ih => rw [List.foldl_cons, List.map_cons, List.foldl_cons, ih (vmin c d), hf]

/-- Helper: rowwiseMax dominates every column, componentwise. -/
theorem comp_le_rowwiseMax (l : List Vec3) (c : Vec3) (hc : c ∈ l) :
    c.x ≤ (rowwiseMax l).x ∧ c.y ≤ (rowwiseMax l).y ∧ c.z ≤ (rowwiseMax l).z := by
  cases l with
  | nil => cases hc
  | cons c0 cs =>
    have hx : (rowwiseMax (c0 :: cs)).x = (cs.map Vec3.x).foldl max c0.x :=
      comp_foldl_vmax Vec3.x (fun _ _ => rfl) cs c0
    have hy : (rowwiseMax (c0 :: cs)).y = (cs.map Vec3.y).foldl max c0.y :=
      comp_foldl_vmax Vec3.y (fun _ _ => rfl) cs c0
    have hz : (rowwiseMax (c0 :: cs)).z = (cs.map Vec3.z).foldl max c0.z :=
      comp_foldl_vmax Vec3.z (fun _ _ => rfl) cs c0
    rcases List.mem_cons.mp hc with h | h
    · subst h
      exact ⟨hx ▸ le_foldl_max _ _, hy ▸ le_foldl_max _ _, hz ▸ le_foldl_max _ _⟩
    · exact ⟨hx ▸ mem_le_foldl_max _ _ _ (List.mem_map_of_mem Vec3.x h),
            hy ▸ mem_le_foldl_max _ _ _ (List.mem_map_of_mem Vec3.y h),
            hz ▸ mem_le_foldl_max _ _ _ (List.mem_map_of_mem Vec3.z h)⟩

/-- Helper: rowwiseMin is below every column, componentwise. -/
theorem rowwiseMin_le_comp (l : List Vec3) (c : Vec3) (hc : c ∈ l) :
    (rowwiseMin l).x ≤ c.x ∧ (rowwiseMin l).y ≤ c.y ∧ (rowwiseMin l).z ≤ c.z := by
  cases l with
  | nil => cases hc
  | cons c0 cs =>
    have hx : (rowwiseMin (c0 :: cs)).x = (cs.map Vec3.x).foldl min c0.x :=
      comp_foldl_vmin Vec3.x (fun _ _ => rfl) cs c0
    have hy : (rowwiseMin (c0 :: cs)).y = (cs.map Vec3.y).foldl min c0.y :=
      comp_foldl_vmin Vec3.y (fun _ _ => rfl) cs c0
    have hz : (rowwiseMin (c0 :: cs)).z = (cs.map Vec3.z).foldl min c0.z :=
      comp_foldl_vmin Vec3.z (fun _ _ => rfl) cs c0
    rcases List.mem_cons.mp hc with h | h
    · subst h
      exact ⟨hx ▸ foldl_min_le _ _, hy ▸ foldl_min_le _ _, hz ▸ foldl_min_le _ _⟩
    · exact ⟨hx ▸ foldl_min_le_mem _ _ _ (List.mem_map_of_mem Vec3.x h),
            hy ▸ foldl_min_le_mem _ _ _ (List.mem_map_of_mem Vec3.y h),
            hz ▸ foldl_min_le_mem _ _ _ (List.mem_map_of_mem Vec3.z h)⟩

/-- Helper: each component of rowwiseMax of a nonempty list is attained by a column. -/
theorem rowwiseMax_attained (l : List Vec3) (h : l ≠ []) :
    (rowwiseMax l).x ∈ l.map Vec3.x ∧ (rowwiseMax l).y ∈ l.map Vec3.y ∧
    (rowwiseMax l).z ∈ l.map Vec3.z := by
  cases l with
  | nil => exact absurd rfl h
  | cons c0 cs =>
    have hx : (rowwiseMax (c0 :: cs)).x = (cs.map Vec3.x).foldl max c0.x :=
      comp_foldl_vmax Vec3.x (fun _ _ => rfl) cs c0
    have hy : (rowwiseMax (c0 :: cs)).y = (cs.map Vec3.y).foldl max c0.y :=
      comp_foldl_vmax Vec3.y (fun _ _ => rfl) cs c0
    have hz : (rowwiseMax (c0 :: cs)).z = (cs.map Vec3.z).foldl max c0.z :=
      comp_foldl_vmax Vec3.z (fun _ _ => rfl) cs c0
    refine ⟨?_, ?_, ?_⟩
    · rw [hx, List.map_cons]
      rcases foldl_max_mem (cs.map Vec3.x) c0.x with hm | hm
      · rw [hm]
        exact List.mem_cons_self _ _
      · exact List.mem_cons_of_mem _ hm
    · rw [hy, List.map_cons]
      rcases foldl_max_mem (cs.map Vec3.y) c0.y with hm | hm
      · rw [hm]
        exact List.mem_cons_self _ _
      · exact List.mem_cons_of_mem _ hm
    · rw [hz, List.map_cons]
      rcases foldl_max_mem (cs.map Vec3.z) c0.z with hm | hm
      · rw [hm]
        exact List.mem_cons_self _ _
      · exact List.mem_cons_of_mem _ hm

/-- Helper: each component of rowwiseMin of a nonempty list is attained by a column. -/
theorem rowwiseMin_attained (l : List Vec3) (h : l ≠ []) :
    (rowwiseMin l).x ∈ l.map Vec3.x ∧ (rowwiseMin l).y ∈ l.map Vec3.y ∧
    (rowwiseMin l).z ∈ l.map Vec3.z := by
  cases l with
  | nil => exact absurd rfl h
  | cons c0 cs =>
    have hx : (rowwiseMin (c0 :: cs)).x = (cs.map Vec3.x).foldl min c0.x :=
      comp_foldl_vmin Vec3.x (fun _ _ => rfl) cs c0
    have hy : (rowwiseMin (c0 :: cs)).y = (cs.map Vec3.y).foldl min c0.y :=
      comp_foldl_vmin Vec3.y (fun _ _ => rfl) cs c0
    have hz : (rowwiseMin (c0 :: cs)).z = (cs.map Vec3.z).foldl min c0.z :=
      comp_foldl_vmin Vec3.z (fun _ _ => rfl) cs c0
    refine ⟨?_, ?_, ?_⟩
    · rw [hx, List.map_cons]
      rcases foldl_min_mem (cs.map Vec3.x) c0.x with hm | hm
      · rw [hm]
        exact List.mem_cons_self _ _
      · exact List.mem_cons_of_mem _ hm
    · rw [hy, List.map_cons]
      rcases foldl_min_mem (cs.map Vec3.y) c0.y with hm | hm
      · rw [hm]
        exact List.mem_cons_self _ _
      · exact List.mem_cons_of_mem _ hm
    · rw [hz, List.map_cons]
      rcases foldl_min_mem (cs.map Vec3.z) c0.z with hm | hm
      · rw [hm]
        exact List.mem_cons_self _ _
      · exact List.mem_cons_of_mem _ hm

/-- Counterexample to claim C1: with one valid particle at (-1, -2, 5) and one invalid
particle at (9, 9, 9), the source bounds computation returns (0, 0, 5), not the
element-wise maximum (-1, -2, 5) of the valid entries: the invalid column contributes
the value 0 to each axis because the mask multiplies it by 0.0 instead of removing it. -/
theorem getMaxCoordinates_zeroes_invalid :
    getMaxCoordinates [⟨-1, -2, 5⟩, ⟨9, 9, 9⟩] [true, false] = ⟨0, 0, 5⟩ ∧
    specMaxValidCoordinates [⟨-1, -2, 5⟩, ⟨9, 9, 9⟩] [true, false] = ⟨-1, -2, 5⟩ ∧
    ((⟨0, 0, 5⟩ : Vec3) ≠ ⟨-1, -2, 5⟩) :=
  ⟨by with_unfolding_all rfl, by with_unfolding_all rfl, by with_unfolding_all decide⟩

/-- Claim C1 as amended: getMaxCoordinates and getMinCoordinates return the element-wise
extrema of the mask-scaled coordinate columns, in which each invalid particle's column is
replaced by the zero vector (so invalid particles contribute 0 to every axis extremum,
and all three axes are treated identically whatever the dimension): each bound dominates
(resp. is below) every mask-scaled column, and each of its components is attained by one. -/
theorem bounds_are_masked_extrema (coordinates : List Vec3) (valid : List Bool)
    (hne : maskedColumns coordinates valid ≠ []) :
    (∀ c ∈ maskedColumns coordinates valid,
      c.x ≤ (getMaxCoordinates coordinates valid).x ∧
      c.y ≤ (getMaxCoordinates coordinates valid).y ∧
      c.z ≤ (getMaxCoordinates coordinates valid).z ∧
      (getMinCoordinates coordinates valid).x ≤ c.x ∧
      (getMinCoordinates coordinates valid).y ≤ c.y ∧
      (getMinCoordinates coordinates valid).z ≤ c.z) ∧
    ((getMaxCoordinates coordinates valid).x ∈ (maskedColumns coordinates valid).map Vec3.x ∧
     (getMaxCoordinates coordinates valid).y ∈ (maskedColumns coordinates valid).map Vec3.y ∧
     (getMaxCoordinates coordinates valid).z ∈ (maskedColumns coordinates valid).map Vec3.z) ∧
    ((getMinCoordinates coordinates valid).x ∈ (maskedColumns coordinates valid).map Vec3.x ∧
     (getMinCoordinates coordinates valid).y ∈ (maskedColumns coordinates valid).map Vec3.y ∧
     (getMinCoordinates coordinates valid).z ∈ (maskedColumns coordinates valid).map Vec3.z) := by
  refine ⟨?_, rowwiseMax_attained _ hne, rowwiseMin_attained _ hne⟩
  intro c hc
  obtain ⟨h1, h2, h3⟩ := comp_le_rowwiseMax _ c hc
  obtain ⟨h4, h5, h6⟩ := rowwiseMin_le_comp _ c hc
  exact ⟨h1, h2, h3, h4, h5, h6⟩

/-- Witness for the amended C1: on the counterexample input the zeroed invalid column is
a masked column, so the maximum bound dominates 0 on the x axis. -/
theorem bounds_are_masked_extrema_witness :
    (0 : ℚ) ≤ (getMaxCoordinates [⟨-1, -2, 5⟩, ⟨9, 9, 9⟩] [true, false]).x :=
  ((bounds_are_masked_extrema [⟨-1, -2, 5⟩, ⟨9, 9, 9⟩] [true, false]
      (by with_unfolding_all decide)).1
    ⟨0, 0, 0⟩ (by with_unfolding_all decide)).1

/-- Helper: a mask with a false entry (and matching lengths) puts the zero vector among
the mask-scaled columns. -/
theorem zero_mem_maskedColumns (coordinates : List Vec3) (valid : List Bool)
    (hlen : valid.length = coordinates.length) (hinv : false ∈ valid) :
    (⟨0, 0, 0⟩ : Vec3) ∈ maskedColumns coordinates valid := by
  induction valid generalizing coordinates with
  | nil => cases hinv
  | cons v vs ih =>
    cases coordinates with
    | nil => simp at hlen
    | cons c cs =>
      rcases List.mem_cons.mp hinv with h | h
      · have hv : v = false := h.symm
        subst hv
        have : (⟨c.x * boolToRat false, c.y * boolToRat false, c.z * boolToRat false⟩ : Vec3) =
            ⟨0, 0, 0⟩ := by
          simp [boolToRat]
        simp only [maskedColumns, List.zip_cons_cons, List.map_cons]
        rw [this]
        exact List.mem_cons_self _ _
      · have hlen2 : vs.length = cs.length := by
          simpa using hlen
        have hmem := ih cs hlen2 h
        simp only [maskedColumns, List.zip_cons_cons, List.map_cons]
        exact List.mem_cons_of_mem _ hmem

/-- Claim C8: whenever the validity mask has at least one false entry (lengths matching),
the computed maximum bound is componentwise at least 0 and the minimum bound at most 0,
because the masked-out column contributes the value 0 to the per-axis extrema. -/
theorem bounds_sign_with_invalid (coordinates : List Vec3) (valid : List Bool)
    (hlen : valid.length = coordinates.length) (hinv : false ∈ valid) :
    (0 ≤ (getMaxCoordinates coordinates valid).x ∧
     0 ≤ (getMaxCoordinates coordinates valid).y ∧
     0 ≤ (getMaxCoordinates coordinates valid).z) ∧
    ((getMinCoordinates coordinates valid).x ≤ 0 ∧
     (getMinCoordinates coordinates valid).y ≤ 0 ∧
     (getMinCoordinates coordinates valid).z ≤ 0) := by
  have hmem := zero_mem_maskedColumns coordinates valid hlen hinv
  obtain ⟨h1, h2, h3⟩ := comp_le_rowwiseMax _ _ hmem
  obtain ⟨h4, h5, h6⟩ := rowwiseMin_le_comp _ _ hmem
  exact ⟨⟨h1, h2, h3⟩, ⟨h4, h5, h6⟩⟩

/-- Witness for C8 on a mask [true, false] over two finite columns. -/
theorem bounds_sign_with_invalid_witness :
    (0 ≤ (getMaxCoordinates [⟨-1, -2, 5⟩, ⟨9, 9, 9⟩] [true, false]).x ∧
     0 ≤ (getMaxCoordinates [⟨-1, -2, 5⟩, ⟨9, 9, 9⟩] [true, false]).y ∧
     0 ≤ (getMaxCoordinates [⟨-1, -2, 5⟩, ⟨9, 9, 9⟩] [true, false]).z) ∧
    ((getMinCoordinates [⟨-1, -2, 5⟩, ⟨9, 9, 9⟩] [true, false]).x ≤ 0 ∧
     (getMinCoordinates [⟨-1, -2, 5⟩, ⟨9, 9, 9⟩] [true, false]).y ≤ 0 ∧
     (getMinCoordinates [⟨-1, -2, 5⟩, ⟨9, 9, 9⟩] [true, false]).z ≤ 0) :=
  bounds_sign_with_invalid [⟨-1, -2, 5⟩, ⟨9, 9, 9⟩] [true, false] rfl
    (by decide)

end TinyMPS

namespace TinyMPS

/-- Helper: the coordinates snapshot held by a constructed grid is the input matrix. -/
theorem mkGrid_coordinates (w : ℚ) (coordinates : List Vec3) (valid : List Bool)
    (dimension : ℤ) : (mkGrid w coordinates valid dimension).coordinates = coordinates := rfl

/-- Helper: the cell width held by a constructed grid is the input influence radius. -/
theorem mkGrid_grid_width (w : ℚ) (coordinates : List Vec3) (valid : List Bool)
    (dimension : ℤ) : (mkGrid w coordinates valid dimension).grid_width = w := rfl

/-- Helper: every candidate a probed cell produces is the particle index of some entry
of the sorted bucket sequence, whatever the range mapping holds. -/
theorem mem_cellCandidates (g : Grid) (cell : ℤ × ℤ × ℤ) (j : ℕ)
    (hj : j ∈ cellCandidates g cell) : ∃ p ∈ g.grid_hash, p.2 = j := by
  simp only [cellCandidates] at hj
  split at hj
  · cases hj
  · obtain ⟨p, hp, hpj⟩ := List.mem_map.mp hj
    exact ⟨p, List.mem_of_mem_drop (List.mem_of_mem_take hp), hpj⟩

/-- Helper: every index the box query returns comes from the sorted bucket sequence. -/
theorem mem_getNeighborsInBox (g : Grid) (i j : ℕ)
    (hj : j ∈ getNeighborsInBox g i) : ∃ p ∈ g.grid_hash, p.2 = j := by
  simp only [getNeighborsInBox] at hj
  obtain ⟨o, _, hc⟩ := List.mem_flatMap.mp hj
  exact mem_cellCandidates _ _ _ hc

/-- Helper: every entry of a constructed grid's sorted bucket sequence carries the index
of a particle whose validity-mask entry is true. -/
theorem grid_hash_only_valid (w : ℚ) (coordinates : List Vec3) (valid : List Bool)
    (dimension : ℤ) (p : ℤ × ℕ)
    (hp : p ∈ (mkGrid w coordinates valid dimension).grid_hash) :
    valid.getD p.2 false = true := by
  have hgh : (mkGrid w coordinates valid dimension).grid_hash =
      (hashedPairs dimension w coordinates valid
        (getMinCoordinates coordinates valid)
        (gridNumberOf w (getMinCoordinates coordinates valid)
          (getMaxCoordinates coordinates valid))).mergeSort (fun a b => a.1 ≤ b.1) := rfl
  rw [hgh] at hp
  have hp2 := List.mem_mergeSort.mp hp
  obtain ⟨a, _, hae⟩ := List.mem_filterMap.mp hp2
  cases hv : valid.getD a false with
  | false => rw [hv] at hae; simp at hae
  | true =>
    rw [hv] at hae
    simp only [if_pos] at hae
    obtain rfl := Option.some.inj hae
    exact hv

/-- Claim C3 (against the spec-modelled queries): a particle whose validity-mask entry is
false never appears in the output of getNeighbors or getNeighborsInBox on a constructed
grid, regardless of its coordinates. -/
theorem neighbors_only_valid (w : ℚ) (coordinates : List Vec3) (valid : List Bool)
    (dimension : ℤ) (i j : ℕ)
    (hmem : j ∈ getNeighbors (mkGrid w coordinates valid dimension) i ∨
            j ∈ getNeighborsInBox (mkGrid w coordinates valid dimension) i) :
    valid.getD j false = true := by
  have hbox : j ∈ getNeighborsInBox (mkGrid w coordinates valid dimension) i := by
    rcases hmem with h | h
    · simp only [getNeighbors] at h
      exact List.mem_of_mem_filter h
    · exact h
  obtain ⟨p, hp, hpj⟩ := mem_getNeighborsInBox _ i j hbox
  have := grid_hash_only_valid w coordinates valid dimension p hp
  rwa [hpj] at this

/-- Witness for C3: the spec's second scenario, where particle 1 is invalid and the query
on particle 0 returns only particle 0 itself, which is valid. -/
theorem neighbors_only_valid_witness :
    List.getD [true, false, true] 0 false = true :=
  neighbors_only_valid 1 [⟨0, 0, 0⟩, ⟨1/2, 0, 0⟩, ⟨2, 0, 0⟩] [true, false, true] 2 0 0
    (Or.inl (by with_unfolding_all decide))

/-- Claim C2 (against the spec-modelled getNeighbors): every particle index the exact
query returns on a constructed grid lies within Euclidean distance grid_width of the
query particle: its squared distance is at most grid_width squared, and hence (for a
nonnegative grid_width) its real Euclidean distance is at most grid_width. -/
theorem getNeighbors_radius (w : ℚ) (coordinates : List Vec3) (valid : List Bool)
    (dimension : ℤ) (i j : ℕ)
    (hmem : j ∈ getNeighbors (mkGrid w coordinates valid dimension) i) :
    sqDist (coordinates.getD i ⟨0, 0, 0⟩) (coordinates.getD j ⟨0, 0, 0⟩) ≤ w ^ 2 ∧
    (0 ≤ w →
      Real.sqrt ((sqDist (coordinates.getD i ⟨0, 0, 0⟩) (coordinates.getD j ⟨0, 0, 0⟩) : ℚ) : ℝ)
        ≤ (w : ℝ)) := by
  simp only [getNeighbors, mkGrid_coordinates, mkGrid_grid_width] at hmem
  have hq : sqDist (coordinates.getD i ⟨0, 0, 0⟩) (coordinates.getD j ⟨0, 0, 0⟩) ≤ w ^ 2 := by
    have h := (List.mem_filter.mp hmem).2
    exact of_decide_eq_true h
  refine ⟨hq, fun hw => ?_⟩
  have hcast : ((sqDist (coordinates.getD i ⟨0, 0, 0⟩) (coordinates.getD j ⟨0, 0, 0⟩) : ℚ) : ℝ)
      ≤ ((w : ℝ)) ^ 2 := by
    exact_mod_cast hq
  calc Real.sqrt ((sqDist (coordinates.getD i ⟨0, 0, 0⟩) (coordinates.getD j ⟨0, 0, 0⟩) : ℚ) : ℝ)
      ≤ Real.sqrt ((w : ℝ) ^ 2) := Real.sqrt_le_sqrt hcast
    _ = (w : ℝ) := Real.sqrt_sq (by exact_mod_cast hw)

/-- Witness for C2: the spec's first scenario; particle 1 is returned for query 0 and its
squared distance from particle 0 is within the squared cell width. -/
theorem getNeighbors_radius_witness :
    sqDist (List.getD [⟨0, 0, 0⟩, ⟨1/2, 0, 0⟩, ⟨2, 0, 0⟩] 0 ⟨0, 0, 0⟩)
        (List.getD [⟨0, 0, 0⟩, ⟨1/2, 0, 0⟩, ⟨2, 0, 0⟩] 1 ⟨0, 0, 0⟩) ≤ (1 : ℚ) ^ 2 :=
  (getNeighbors_radius 1 [⟨0, 0, 0⟩, ⟨1/2, 0, 0⟩, ⟨2, 0, 0⟩] [true, true, true] 2 0 1
    (by with_unfolding_all decide)).1

end TinyMPS
